import Mathlib

/-!
Verification development for `paginate_epub.py`, a script that inserts or
removes page-marker `<span id="pgepubid…"/>` elements in XHTML documents.

Shallow embedding conventions:
* Strings of the Python program are modelled as `List Char` (the `chars`
  helper converts Lean string literals); `str.lower()` is `List.map
  Char.toLower`, Python `\w` is ASCII letters, digits and underscore.
* lxml element trees are modelled by the nested inductive `Elem`
  (tag, `id` attribute, leading text, trailing tail text, children).
  A namespaced lxml tag reads "{uri}local"; `etree.QName(...).localname`
  is modelled by `localname`.  Braces are produced with `Char.ofNat` so
  that namespaced tags can be built without brace literals.
* The body of `process_file`'s placement loop iterates over the snapshot
  `list(body.iter())`; we model that snapshot as `preorderEl` and the loop
  body as a fold of `step`.  Inserted spans are recorded as `Event`s and
  spliced into the tree by `insertSpans`, mirroring `el.addprevious` and
  `parent.insert(parent.index(el) + 1, …)`.
* Lines 139-146 of the source are mis-indented (the `if word_count >=
  interval:` guarding the tail-run insertion has no indented block, which
  is an IndentationError in Python).  The embedding uses the evident
  intended indentation: lines 140-146 form the body of that guard.  This
  slip is recorded against the claim about those lines.
-/

/-- Convert a Lean string literal to the `List Char` representation used by
the embedding. -/
def chars (s : String) : List Char := s.data

/-- Left brace character, written via its code point so that no brace
literal appears in the file. -/
def lbrace : Char := Char.ofNat 123

/-- Right brace character. -/
def rbrace : Char := Char.ofNat 125

/-- Python `\w` restricted to ASCII: letters, digits and underscore. -/
def isWordChar (c : Char) : Bool := c.isAlphanum || c = '_'

/-- Helper for `count_words`: counts maximal runs of word characters; the
boolean records whether the previous character was a word character. -/
def countRunsAux : List Char → Bool → Nat
  | [], _ => 0
  | c :: rest, inWord =>
    if isWordChar c then (if inWord then 0 else 1) + countRunsAux rest true
    else countRunsAux rest false

/-- Embedding of `count_words`: `len(re.findall(r'\b\w+\b', text or ""))`,
the number of maximal runs of word characters. -/
def count_words (s : List Char) : Nat := countRunsAux s false

/-- Python truthiness of an optional string: `None` and `""` are falsy. -/
def truthy : Option (List Char) → Bool
  | none => false
  | some s => !s.isEmpty

/-- Embedding of `etree.QName(tag).localname`: for a tag of the form
"{uri}local" return "local", otherwise the tag itself. -/
def localname (tag : List Char) : List Char :=
  match tag with
  | c :: rest => if c = lbrace then (rest.dropWhile (fun d => d ≠ rbrace)).drop 1 else tag
  | [] => []

/-- Lowercased localname, as used by `is_inside_anchor` and the
list-container check. -/
def lnLower (tag : List Char) : List Char := (localname tag).map Char.toLower

/-- Whether an element tag denotes an anchor: `QName(el).localname.lower()
== "a"`. -/
def isAnchorTag (tag : List Char) : Bool := lnLower tag = chars "a"

/-! ### Roman numerals (`int_to_roman`, `roman_to_int`) -/

/-- The numeral table of `int_to_roman`. -/
def numerals : List (Nat × List Char) :=
  [(1000, chars "m"), (900, chars "cm"), (500, chars "d"), (400, chars "cd"),
   (100, chars "c"), (90, chars "xc"), (50, chars "l"), (40, chars "xl"),
   (10, chars "x"), (9, chars "ix"), (5, chars "v"), (4, chars "iv"), (1, chars "i")]

/-- Embedding of the nested `for`/`while` loops of `int_to_roman`.  The
extra `0 < value` conjunct only serves termination; every value in
`numerals` is positive, so on the source's table the behaviour is
identical to `while n >= value`. -/
def int_to_roman_aux : List (Nat × List Char) → Nat → List Char
  | [], _ => []
  | (value, numeral) :: rest, n =>
    if value ≤ n ∧ 0 < value then
      numeral ++ int_to_roman_aux ((value, numeral) :: rest) (n - value)
    else
      int_to_roman_aux rest n
termination_by l n => (n, l.length)
decreasing_by
  all_goals simp only [List.length_cons]
  all_goals first
    | exact Prod.Lex.left _ _ (by omega)
    | exact Prod.Lex.right _ (by omega)

/-- Embedding of `int_to_roman`. -/
def int_to_roman (n : Nat) : List Char := int_to_roman_aux numerals n

/-- The fixed dictionary of `roman_to_int`, keyed by character lists. -/
def roman_map : List (List Char × Nat) :=
  [(chars "i", 1), (chars "ii", 2), (chars "iii", 3), (chars "iv", 4),
   (chars "v", 5), (chars "vi", 6), (chars "vii", 7), (chars "viii", 8),
   (chars "ix", 9), (chars "x", 10), (chars "xi", 11), (chars "xii", 12),
   (chars "xiii", 13), (chars "xiv", 14), (chars "xv", 15)]

/-- First-match association-list lookup, modelling `dict.get(s, None)`
(keys of `roman_map` are distinct, so first-match equals dict lookup). -/
def lookupChars : List (List Char × Nat) → List Char → Option Nat
  | [], _ => none
  | (k, v) :: rest, l => if l = k then some v else lookupChars rest l

/-- Embedding of `roman_to_int`: lowercase the string, then look it up in
the fixed fifteen-entry table. -/
def roman_to_int (s : List Char) : Option Nat :=
  lookupChars roman_map (s.map Char.toLower)

/-- Embedding of Python's `f"{n:05d}"`: decimal digits zero-padded to at
least five characters. -/
def pad5 (n : Nat) : List Char :=
  List.replicate (5 - (Nat.repr n).length) '0' ++ (Nat.repr n).data

/-- Embedding of `int(s)` on a digit string. -/
def natOfDigits (s : List Char) : Nat :=
  s.foldl (fun a c => 10 * a + (c.toNat - 48)) 0

/-- Embedding of Python's `str.isdigit` (restricted to ASCII digits):
nonempty and all digits. -/
def isdigitStr (s : List Char) : Bool := !s.isEmpty && s.all Char.isDigit

/-! ### Document trees -/

/-- An lxml element: namespace-qualified tag, optional `id` attribute,
leading text (`.text`), trailing text (`.tail`), ordered children. -/
inductive Elem : Type where
  | mk (tag : List Char) (idAttr : Option (List Char)) (text : Option (List Char))
       (tail : Option (List Char)) (children : List Elem)

/-- Tag of an element. -/
def Elem.tag : Elem → List Char
  | .mk t _ _ _ _ => t

/-- Value of the `id` attribute, if present. -/
def Elem.idAttr : Elem → Option (List Char)
  | .mk _ i _ _ _ => i

/-- Leading text run of an element. -/
def Elem.text : Elem → Option (List Char)
  | .mk _ _ tx _ _ => tx

/-- Trailing text run of an element. -/
def Elem.tail : Elem → Option (List Char)
  | .mk _ _ _ tl _ => tl

/-- Children of an element. -/
def Elem.children : Elem → List Elem
  | .mk _ _ _ _ ch => ch

/-- Element reached by following a list of child indices from a root. -/
def elementAt : Elem → List Nat → Option Elem
  | el, [] => some el
  | el, i :: q =>
    match el.children[i]? with
    | some c => elementAt c q
    | none => none

/-- Embedding of `is_inside_anchor` as a path predicate: true when some
element on the chain from the root down to (and including) the element at
the path has lowercased localname "a".  (The source walks parent links
upward from the element; over a tree this visits exactly this chain.) -/
def is_inside_anchor : Elem → List Nat → Bool
  | el, [] => isAnchorTag el.tag
  | el, i :: q =>
    isAnchorTag el.tag ||
      (match el.children[i]? with
       | some c => is_inside_anchor c q
       | none => false)

/-- Tag of the parent of the element at a path (`el.getparent()`),
`none` for the root. -/
def parentTagAt (root : Elem) (p : List Nat) : Option (List Char) :=
  if p = [] then none else (elementAt root p.dropLast).map Elem.tag

/-- Condition of the stray-removal loop (lines 110-112) and of
`strip_pgepubid`: raw tag equal to "span" (namespace-sensitive!) and `id`
starting with "pgepubid". -/
def isStraySpan (el : Elem) : Bool :=
  el.tag = chars "span" && (chars "pgepubid").isPrefixOf (el.idAttr.getD [])

/-- Condition of `find_first_pgepubid`: namespace-agnostic localname
"span" and `id` starting with "pgepubid" (note the asymmetry with
`isStraySpan`). -/
def isMarkerSpan (el : Elem) : Bool :=
  localname el.tag = chars "span" && (chars "pgepubid").isPrefixOf (el.idAttr.getD [])

mutual
/-- Embedding of `find_first_pgepubid`: first element in document order
whose localname is "span" and whose id starts with "pgepubid"; returns
its path and its id value. -/
def find_first_pgepubid : Elem → List Nat → Option (List Nat × List Char)
  | el@(.mk _ _ _ _ ch), p =>
    if isMarkerSpan el then some (p, el.idAttr.getD [])
    else findFirstKids ch p 0
/-- Helper of `find_first_pgepubid` for a child list. -/
def findFirstKids : List Elem → List Nat → Nat → Option (List Nat × List Char)
  | [], _, _ => none
  | c :: cs, p, i =>
    match find_first_pgepubid c (p ++ [i]) with
    | some r => some r
    | none => findFirstKids cs p (i + 1)
end

mutual
/-- Embedding of `strip_pgepubid`: removes (with its subtree, and with its
tail text, as lxml `remove` does) every element whose raw tag is "span"
and whose id starts with "pgepubid".  The root is never removed. -/
def strip_pgepubid : Elem → Elem
  | .mk t i tx tl ch => .mk t i tx tl (stripKids ch)
/-- Helper of `strip_pgepubid` for a child list. -/
def stripKids : List Elem → List Elem
  | [] => []
  | c :: cs => (if isStraySpan c then [] else [strip_pgepubid c]) ++ stripKids cs
end

mutual
/-- Embedding of the stray-removal loop of `process_file` (lines 110-112):
like `strip_pgepubid` but keeps the element at path `fp` (the first-found
marker, identity-compared in the source).  Paths are relative to the
original tree. -/
def removeStray (fp : List Nat) : Elem → List Nat → Elem
  | .mk t i tx tl ch, p => .mk t i tx tl (removeStrayKids fp ch p 0)
/-- Helper of `removeStray` for a child list. -/
def removeStrayKids (fp : List Nat) : List Elem → List Nat → Nat → List Elem
  | [], _, _ => []
  | c :: cs, p, i =>
    (if isStraySpan c ∧ p ++ [i] ≠ fp then [] else [removeStray fp c (p ++ [i])])
      ++ removeStrayKids fp cs p (i + 1)
end

/-- Result of the body search: path of the body element, whether one of
its proper ancestors is an anchor, tag of its parent (if any), and the
body element itself. -/
structure BodyHit where
  path : List Nat
  anc : Bool
  parentTag : Option (List Char)
  body : Elem

mutual
/-- Embedding of the body search (line 115): first element in document
order with localname "body" (namespace-agnostic, case-sensitive),
together with its traversal context. -/
def findBody : Elem → List Nat → Bool → Option (List Char) → Option BodyHit
  | el@(.mk tag _ _ _ ch), p, ia, pt =>
    if localname tag = chars "body" then some ⟨p, ia, pt, el⟩
    else findBodyKids ch p 0 (ia || isAnchorTag tag) tag
/-- Helper of `findBody` for a child list. -/
def findBodyKids : List Elem → List Nat → Nat → Bool → List Char → Option BodyHit
  | [], _, _, _, _ => none
  | c :: cs, p, i, ia, ptag =>
    match findBody c (p ++ [i]) ia (some ptag) with
    | some r => some r
    | none => findBodyKids cs p (i + 1) ia ptag
end

/-! ### The placement loop -/

/-- One entry of the snapshot `list(body.iter())`, together with the
context the loop body reads from the live tree: the element's path, its
text and tail runs, whether it is inside an anchor, and its parent's tag
(`none` iff `el.getparent() is None`). -/
structure VisitItem where
  path : List Nat
  textRun : Option (List Char)
  tailRun : Option (List Char)
  insideA : Bool
  parentTag : Option (List Char)

mutual
/-- Document-order enumeration of a subtree as `VisitItem`s, modelling
`list(body.iter())`.  `anc` says whether a proper ancestor is an anchor;
`pt` is the parent's tag. -/
def preorderEl : Elem → List Nat → Bool → Option (List Char) → List VisitItem
  | .mk tag _ tx tl ch, p, anc, pt =>
    ⟨p, tx, tl, anc || isAnchorTag tag, pt⟩ :: preorderKids ch p 0 (anc || isAnchorTag tag) tag
/-- Helper of `preorderEl` for a child list. -/
def preorderKids : List Elem → List Nat → Nat → Bool → List Char → List VisitItem
  | [], _, _, _, _ => []
  | c :: cs, p, i, ia, ptag =>
    preorderEl c (p ++ [i]) ia (some ptag) ++ preorderKids cs p (i + 1) ia ptag
end

/-- Kind of an insertion performed by the loop: `before` models
`el.addprevious(span)`, `after` models
`parent.insert(parent.index(el) + 1, span)`. -/
inductive EvKind : Type where
  | before
  | after
deriving DecidableEq

/-- One insertion performed by the placement loop: target element path,
kind, and the numeric value of the new marker. -/
structure Event where
  path : List Nat
  kind : EvKind
  value : Nat
deriving DecidableEq

/-- Mutable state of the placement loop: `word_count`, `page_index`, and
the insertions performed so far. -/
structure PState where
  wc : Nat
  idx : Nat
  evs : List Event

/-- The set of list-container tags (line 143). -/
def listContainers : List (List Char) := [chars "ul", chars "ol", chars "menu"]

/-- Embedding of one iteration of the placement loop (lines 127-146 as
intended; see the header note on the indentation slip).  Matches the
source exactly: the anchored `continue`; the text-run count guarded by
truthiness; the unguarded first threshold check, inserting before `el`
when it has a parent; the tail-run count and the second threshold check,
both guarded by the tail's truthiness, inserting after `el` unless the
parent's lowercased localname is a list container. -/
def step (interval : Nat) (s : PState) (it : VisitItem) : PState :=
  if it.insideA then s
  else
    let s1 : PState :=
      if truthy it.textRun then ⟨s.wc + count_words (it.textRun.getD []), s.idx, s.evs⟩ else s
    let s2 : PState :=
      if interval ≤ s1.wc then
        match it.parentTag with
        | some _ => ⟨0, s1.idx + 1, s1.evs ++ [⟨it.path, .before, s1.idx⟩]⟩
        | none => s1
      else s1
    if truthy it.tailRun then
      let s3 : PState := ⟨s2.wc + count_words (it.tailRun.getD []), s2.idx, s2.evs⟩
      if interval ≤ s3.wc then
        match it.parentTag with
        | some pt =>
          if lnLower pt ∈ listContainers then s3
          else ⟨0, s3.idx + 1, s3.evs ++ [⟨it.path, .after, s3.idx⟩]⟩
        | none => s3
      else s3
    else s2

/-- Insertions performed by the whole placement loop for a given body
hit, base value and interval. -/
def placementEvents (hit : BodyHit) (base interval : Nat) : List Event :=
  ((preorderEl hit.body hit.path hit.anc hit.parentTag).foldl (step interval) ⟨0, base + 1, []⟩).evs

/-- Id string produced by `make_span`. -/
def make_span_id (is_roman : Bool) (n : Nat) : List Char :=
  if is_roman then chars "pgepubid000" ++ int_to_roman n else chars "pgepubid" ++ pad5 n

/-- Embedding of `make_span`: a fresh, unnamespaced `span` element. -/
def make_span (is_roman : Bool) (n : Nat) : Elem :=
  .mk (chars "span") (some (make_span_id is_roman n)) none none []

mutual
/-- Splice the recorded insertions into the tree: spans inserted before an
element precede it among its parent's children, spans inserted after it
follow it immediately (before any span inserted before its next sibling),
exactly as the `addprevious` / `insert(index(el)+1)` calls leave the live
tree given that the iteration list was snapshotted beforehand. -/
def insertSpans (isR : Bool) (evs : List Event) : Elem → List Nat → Elem
  | .mk t i tx tl ch, p => .mk t i tx tl (insertKids isR evs ch p 0)
/-- Helper of `insertSpans` for a child list. -/
def insertKids (isR : Bool) (evs : List Event) : List Elem → List Nat → Nat → List Elem
  | [], _, _ => []
  | c :: cs, p, i =>
    (evs.filter (fun e => decide (e.path = p ++ [i] ∧ e.kind = EvKind.before))).map
        (fun e => make_span isR e.value)
      ++ [insertSpans isR evs c (p ++ [i])]
      ++ (evs.filter (fun e => decide (e.path = p ++ [i] ∧ e.kind = EvKind.after))).map
        (fun e => make_span isR e.value)
      ++ insertKids isR evs cs p (i + 1)
end

/-- Embedding of the suffix parse of `process_file` (lines 98-107):
decimal digits first, then the roman table. -/
def parseSuffix (suffix : List Char) : Option (Bool × Nat) :=
  if isdigitStr suffix then some (false, natOfDigits suffix)
  else
    match roman_to_int suffix with
    | some b => some (true, b)
    | none => none

/-- Outcome of processing one file.  `written` carries the tree that is
serialized back to the file; the other constructors model the paths of
`process_file` that return before `tree.write`, leaving the file
untouched. -/
inductive Outcome : Type where
  | skip
  | written (t : Elem)
  | errorUnparsable
  | errorNoBody

/-- Embedding of `process_file` on an already-parsed tree. -/
def process_file (doc : Elem) (interval : Nat) : Outcome :=
  match find_first_pgepubid doc [] with
  | none => .skip
  | some (fp, fid) =>
    if fid = chars "pgepubid" then .written (strip_pgepubid doc)
    else
      match parseSuffix (fid.drop 8) with
      | none => .errorUnparsable
      | some (isR, base) =>
        let doc1 := removeStray fp doc []
        match findBody doc1 [] false none with
        | none => .errorNoBody
        | some hit => .written (insertSpans isR (placementEvents hit base interval) doc1 [])

mutual
/-- Number of markers (localname "span", id starting with "pgepubid") in
a tree. -/
def markerCount : Elem → Nat
  | el@(.mk _ _ _ _ ch) => (if isMarkerSpan el then 1 else 0) + markerCountKids ch
/-- Helper of `markerCount` for a child list. -/
def markerCountKids : List Elem → Nat
  | [] => 0
  | c :: cs => markerCount c + markerCountKids cs
end

/-- The tree written by an outcome, if any. -/
def writtenTree : Outcome → Option Elem
  | .written t => some t
  | _ => none

/-- True when some element strictly above the end of the path (a proper
ancestor of the element at the path) is an anchor. -/
def ancAbove : Elem → List Nat → Bool
  | _, [] => false
  | el, i :: q =>
    isAnchorTag el.tag ||
      (match el.children[i]? with
       | some c => ancAbove c q
       | none => false)

/-! ### Command-line dispatch (`main`) -/

/-- Branch taken by `main`. -/
inductive MainAction : Type where
  | usageError
  | processFileAt (p : List Char)
  | listDir (p : List Char)
  | invalidArg

/-- Filesystem environment consulted by `main`: `os.path.isfile` and
`os.path.isdir`. -/
structure Fs where
  isFile : List Char → Bool
  isDir : List Char → Bool

/-- Embedding of `arg.endswith(".xhtml")`. -/
def endsWithXhtml (s : List Char) : Bool := (chars ".xhtml").isSuffixOf s

/-- Embedding of `main` (lines 171-182), assuming normal termination of
the dispatched call: returns the process exit status and the branch
taken.  With a wrong argument count, `sys.exit(1)` gives status 1; in
every other branch `main` returns normally, including the final `else`
branch, which prints an error message but does not call `sys.exit`, so
the process exits 0. -/
def mainRun (argv : List (List Char)) (fs : Fs) : Nat × MainAction :=
  if argv.length ≠ 2 then (1, .usageError)
  else
    let arg := argv.getD 1 []
    if endsWithXhtml arg && fs.isFile arg then (0, .processFileAt arg)
    else if fs.isDir arg then (0, .listDir arg)
    else (0, .invalidArg)

/-! ### Concrete documents used by counterexamples and witnesses -/

/-- The XHTML namespace URI. -/
def xhtmlNs : List Char := chars "http://www.w3.org/1999/xhtml"

/-- A namespace-qualified lxml tag "{uri}local". -/
def nsTag (ln : List Char) : List Char := lbrace :: (xhtmlNs ++ rbrace :: ln)

/-- Namespaced document in Continue mode containing the first marker and
one stray marker of the same prefix. -/
def docC1ns : Elem :=
  .mk (nsTag (chars "html")) none none none [
    .mk (nsTag (chars "body")) none none none [
      .mk (nsTag (chars "span")) (some (chars "pgepubid00005")) none none [],
      .mk (nsTag (chars "span")) (some (chars "pgepubid00009")) none none []]]

/-- Namespaced document whose only marker is the bare prefix
(`StripOnly` mode). -/
def docC5ns : Elem :=
  .mk (nsTag (chars "html")) none none none [
    .mk (nsTag (chars "body")) none none none [
      .mk (nsTag (chars "span")) (some (chars "pgepubid")) none none []]]

/-- Continue-mode document whose body holds the seed marker and a single
paragraph with text run `ws`. -/
def docC2 (ws : List Char) : Elem :=
  .mk (chars "html") none none none [
    .mk (chars "body") none none none [
      .mk (chars "span") (some (chars "pgepubid00042")) none none [],
      .mk (chars "p") none (some ws) none []]]

/-- The body element of `docC2 ws`. -/
def bodyC2 (ws : List Char) : Elem :=
  .mk (chars "body") none none none [
    .mk (chars "span") (some (chars "pgepubid00042")) none none [],
    .mk (chars "p") none (some ws) none []]

/-- `docC2 ws` after the placement pass: one new marker, inserted
immediately before the paragraph. -/
def docC2out (ws : List Char) : Elem :=
  .mk (chars "html") none none none [
    .mk (chars "body") none none none [
      .mk (chars "span") (some (chars "pgepubid00042")) none none [],
      .mk (chars "span") (some (chars "pgepubid00043")) none none [],
      .mk (chars "p") none (some ws) none []]]

/-- A text run of exactly 400 words. -/
def w400 : List Char := (List.replicate 400 (chars "word ")).flatten

/-- Witness document for the anchor claim: the anchor's text would cross
the interval but is skipped; the paragraph then triggers one insertion. -/
def bodyW4 : Elem :=
  .mk (chars "body") none none none [
    .mk (chars "span") (some (chars "pgepubid00001")) none none [],
    .mk (chars "a") none (some (chars "x y")) none [],
    .mk (chars "p") none (some (chars "a b")) none []]

/-- Full document around `bodyW4`. -/
def docW4 : Elem := .mk (chars "html") none none none [bodyW4]

/-- Witness document for numbering continuity. -/
def bodyW6 : Elem :=
  .mk (chars "body") none none none [
    .mk (chars "span") (some (chars "pgepubid00042")) none none [],
    .mk (chars "p") none (some (chars "one two")) none []]

/-- Full document around `bodyW6`. -/
def docW6 : Elem := .mk (chars "html") none none none [bodyW6]

/-- Witness document for the tail-insertion claim: an element whose tail
run crosses the interval, inside a `div` (not a list container). -/
def bodyW7 : Elem :=
  .mk (chars "body") none none none [
    .mk (chars "span") (some (chars "pgepubid00001")) none none [],
    .mk (chars "div") none none none [
      .mk (chars "em") none none (some (chars "a b")) []]]

/-- Full document around `bodyW7`. -/
def docW7 : Elem := .mk (chars "html") none none none [bodyW7]

/-- Document whose first marker has an unparsable suffix. -/
def docC8u : Elem :=
  .mk (chars "html") none none none [
    .mk (chars "body") none none none [
      .mk (chars "span") (some (chars "pgepubidabc")) none none []]]

/-- Document with a parsable first marker but no body element. -/
def docC8b : Elem :=
  .mk (chars "html") none none none [
    .mk (chars "head") none none none [
      .mk (chars "span") (some (chars "pgepubid00001")) none none []]]

/-- Filesystem on which no path is a file or a directory. -/
def fsNone : Fs := ⟨fun _ => false, fun _ => false⟩
/-! ### Theorems -/

example : int_to_roman 12 = chars "xii" := by
  simp [int_to_roman, int_to_roman_aux, numerals, chars]
example : int_to_roman 16 = chars "xvi" := by
  simp [int_to_roman, int_to_roman_aux, numerals, chars]
example : roman_to_int (chars "xii") = some 12 := by decide
example : roman_to_int (chars "xvi") = none := by decide
example : roman_to_int (chars "000xii") = none := by decide
example : count_words (chars "hello, world done") = 3 := by decide
example : pad5 42 = chars "00042" := by decide
example : natOfDigits (chars "00023") = 23 := by decide
example : localname (lbrace :: chars "ns" ++ rbrace :: chars "span") = chars "span" := by decide

/-- Unfolding lemma: a table entry larger than `n` is skipped. -/
theorem aux_skip {v : Nat} {s : List Char} {r : List (Nat × List Char)} {n : Nat} (h : n < v) :
    int_to_roman_aux ((v, s) :: r) n = int_to_roman_aux r n := by
  rw [int_to_roman_aux]
  rw [if_neg (by omega)]

/-- Unfolding lemma: a table entry at most `n` emits its numeral. -/
theorem aux_take {v : Nat} {s : List Char} {r : List (Nat × List Char)} {n : Nat}
    (h1 : v ≤ n) (h2 : 0 < v) :
    int_to_roman_aux ((v, s) :: r) n = s ++ int_to_roman_aux ((v, s) :: r) (n - v) := by
  rw [int_to_roman_aux]
  rw [if_pos ⟨h1, h2⟩]

/-- Shape of `int_to_roman` for 1000 ≤ n. -/
theorem shape1000 {n : Nat} (h : 1000 ≤ n) : ∃ t, int_to_roman n = 'm' :: t := by
  rw [int_to_roman, numerals, aux_take h (by omega)]
  exact ⟨_, rfl⟩

/-- Shape of `int_to_roman` for 900 ≤ n < 1000. -/
theorem shape900 {n : Nat} (h1 : 900 ≤ n) (h2 : n < 1000) :
    ∃ t, int_to_roman n = 'c' :: 'm' :: t := by
  rw [int_to_roman, numerals, aux_skip h2, aux_take h1 (by omega)]
  exact ⟨_, rfl⟩

/-- Shape of `int_to_roman` for 500 ≤ n < 900. -/
theorem shape500 {n : Nat} (h1 : 500 ≤ n) (h2 : n < 900) :
    ∃ t, int_to_roman n = 'd' :: t := by
  rw [int_to_roman, numerals, aux_skip (by omega), aux_skip (by omega),
      aux_take h1 (by omega)]
  exact ⟨_, rfl⟩

/-- Shape of `int_to_roman` for 400 ≤ n < 500. -/
theorem shape400 {n : Nat} (h1 : 400 ≤ n) (h2 : n < 500) :
    ∃ t, int_to_roman n = 'c' :: 'd' :: t := by
  rw [int_to_roman, numerals, aux_skip (by omega), aux_skip (by omega), aux_skip (by omega),
      aux_take h1 (by omega)]
  exact ⟨_, rfl⟩

/-- Shape of `int_to_roman` for 100 ≤ n < 400. -/
theorem shape100 {n : Nat} (h1 : 100 ≤ n) (h2 : n < 400) :
    ∃ t, int_to_roman n = 'c' :: t := by
  rw [int_to_roman, numerals, aux_skip (by omega), aux_skip (by omega), aux_skip (by omega),
      aux_skip (by omega), aux_take h1 (by omega)]
  exact ⟨_, rfl⟩

/-- Shape of `int_to_roman` for 90 ≤ n < 100. -/
theorem shape90 {n : Nat} (h1 : 90 ≤ n) (h2 : n < 100) :
    ∃ t, int_to_roman n = 'x' :: 'c' :: t := by
  rw [int_to_roman, numerals, aux_skip (by omega), aux_skip (by omega), aux_skip (by omega),
      aux_skip (by omega), aux_skip (by omega), aux_take h1 (by omega)]
  exact ⟨_, rfl⟩

/-- Shape of `int_to_roman` for 50 ≤ n < 90. -/
theorem shape50 {n : Nat} (h1 : 50 ≤ n) (h2 : n < 90) :
    ∃ t, int_to_roman n = 'l' :: t := by
  rw [int_to_roman, numerals, aux_skip (by omega), aux_skip (by omega), aux_skip (by omega),
      aux_skip (by omega), aux_skip (by omega), aux_skip (by omega), aux_take h1 (by omega)]
  exact ⟨_, rfl⟩

/-- Shape of `int_to_roman` for 40 ≤ n < 50. -/
theorem shape40 {n : Nat} (h1 : 40 ≤ n) (h2 : n < 50) :
    ∃ t, int_to_roman n = 'x' :: 'l' :: t := by
  rw [int_to_roman, numerals, aux_skip (by omega), aux_skip (by omega), aux_skip (by omega),
      aux_skip (by omega), aux_skip (by omega), aux_skip (by omega), aux_skip (by omega),
      aux_take h1 (by omega)]
  exact ⟨_, rfl⟩

/-- Shape of `int_to_roman` for 20 ≤ n < 40. -/
theorem shape20 {n : Nat} (h1 : 20 ≤ n) (h2 : n < 40) :
    ∃ t, int_to_roman n = 'x' :: 'x' :: t := by
  rw [int_to_roman, numerals, aux_skip (by omega), aux_skip (by omega), aux_skip (by omega),
      aux_skip (by omega), aux_skip (by omega), aux_skip (by omega), aux_skip (by omega),
      aux_skip (by omega), aux_take (by omega) (by omega), aux_take (by omega) (by omega)]
  exact ⟨_, rfl⟩

/-- Shape of `int_to_roman` for 10 ≤ n < 40. -/
theorem shape10 {n : Nat} (h1 : 10 ≤ n) (h2 : n < 40) :
    ∃ t, int_to_roman n = 'x' :: t := by
  rw [int_to_roman, numerals, aux_skip (by omega), aux_skip (by omega), aux_skip (by omega),
      aux_skip (by omega), aux_skip (by omega), aux_skip (by omega), aux_skip (by omega),
      aux_skip (by omega), aux_take h1 (by omega)]
  exact ⟨_, rfl⟩

/-- Shape of `int_to_roman` for 5 ≤ n < 9. -/
theorem shape5 {n : Nat} (h1 : 5 ≤ n) (h2 : n < 9) :
    ∃ t, int_to_roman n = 'v' :: t := by
  rw [int_to_roman, numerals, aux_skip (by omega), aux_skip (by omega), aux_skip (by omega),
      aux_skip (by omega), aux_skip (by omega), aux_skip (by omega), aux_skip (by omega),
      aux_skip (by omega), aux_skip (by omega), aux_skip (by omega), aux_take h1 (by omega)]
  exact ⟨_, rfl⟩

/-- Shape of `int_to_roman` for 1 ≤ n < 4. -/
theorem shape1 {n : Nat} (h1 : 1 ≤ n) (h2 : n < 4) :
    ∃ t, int_to_roman n = 'i' :: t := by
  rw [int_to_roman, numerals, aux_skip (by omega), aux_skip (by omega), aux_skip (by omega),
      aux_skip (by omega), aux_skip (by omega), aux_skip (by omega), aux_skip (by omega),
      aux_skip (by omega), aux_skip (by omega), aux_skip (by omega), aux_skip (by omega),
      aux_skip (by omega), aux_take h1 (by omega)]
  exact ⟨_, rfl⟩

/-- Evaluation of `int_to_roman 9`. -/
theorem itr9 : int_to_roman 9 = 'i' :: 'x' :: [] := by
  simp [int_to_roman, int_to_roman_aux, numerals, chars]

/-- Evaluation of `int_to_roman 4`. -/
theorem itr4 : int_to_roman 4 = 'i' :: 'v' :: [] := by
  simp [int_to_roman, int_to_roman_aux, numerals, chars]

/-- Generic lookup failure. -/
theorem lookupChars_eq_none {m : List (List Char × Nat)} {l : List Char}
    (h : ∀ kv ∈ m, l ≠ kv.1) : lookupChars m l = none := by
  induction m with
  | nil => rfl
  | cons kv rest ih =>
    obtain ⟨k, v⟩ := kv
    rw [lookupChars, if_neg (h (k, v) (List.mem_cons_self _ _))]
    exact ih fun kv hkv => h kv (List.mem_cons_of_mem _ hkv)

/-- The roman table written out as character lists. -/
theorem roman_map_eq :
    roman_map =
      [(['i'], 1), (['i', 'i'], 2), (['i', 'i', 'i'], 3), (['i', 'v'], 4),
       (['v'], 5), (['v', 'i'], 6), (['v', 'i', 'i'], 7), (['v', 'i', 'i', 'i'], 8),
       (['i', 'x'], 9), (['x'], 10), (['x', 'i'], 11), (['x', 'i', 'i'], 12),
       (['x', 'i', 'i', 'i'], 13), (['x', 'i', 'v'], 14), (['x', 'v'], 15)] := rfl

/-- No key of the roman table starts with 'm', 'd', 'c', 'l' or '0'. -/
theorem roman_lookup_head_none {c : Char} (hc : c ∈ ['m', 'd', 'c', 'l', '0'])
    (l : List Char) : lookupChars roman_map (c :: l) = none := by
  apply lookupChars_eq_none
  rw [roman_map_eq]
  intro kv hkv
  fin_cases hc <;> fin_cases hkv <;>
    (intro h; injection h with h1 h2; exact absurd h1 (by decide))

/-- No key of the roman table starts with 'x' followed by 'c', 'l' or
'x'. -/
theorem roman_lookup_x_none {c : Char} (hc : c ∈ ['c', 'l', 'x'])
    (l : List Char) : lookupChars roman_map ('x' :: c :: l) = none := by
  apply lookupChars_eq_none
  rw [roman_map_eq]
  intro kv hkv
  fin_cases hc <;> fin_cases hkv <;>
    (intro h; injection h with h1 h2;
     first
       | exact absurd h1 (by decide)
       | (injection h2; done)
       | (injection h2 with h3 h4; exact absurd h3 (by decide)))

/-- `roman_to_int` on a cons, with the lowercase map pushed inside. -/
theorem roman_to_int_cons (c : Char) (l : List Char) :
    roman_to_int (c :: l) = lookupChars roman_map (c.toLower :: l.map Char.toLower) := rfl

/-- `roman_to_int` fails on any string whose first character lowercases
into {m, d, c, l, 0}. -/
theorem rti_head_none {c : Char} (hc : c.toLower ∈ ['m', 'd', 'c', 'l', '0'])
    (l : List Char) : roman_to_int (c :: l) = none := by
  rw [roman_to_int_cons]
  exact roman_lookup_head_none hc _

/-- `roman_to_int` fails on any string starting with "x" followed by one
of c, l, x. -/
theorem rti_x_none {c1 c2 : Char} (h1 : c1.toLower = 'x') (h2 : c2.toLower ∈ ['c', 'l', 'x'])
    (l : List Char) : roman_to_int (c1 :: c2 :: l) = none := by
  rw [roman_to_int_cons, h1]
  exact roman_lookup_x_none h2 _

/-- For 16 ≤ n the roman rendering of n is not a key of the table. -/
theorem rti_itr_none_of_ge16 {n : Nat} (h : 16 ≤ n) :
    roman_to_int (int_to_roman n) = none := by
  rcases Nat.lt_or_ge n 20 with h20 | h20
  · interval_cases n <;>
      simp [int_to_roman, int_to_roman_aux, numerals, chars, roman_to_int, roman_map,
        lookupChars]
  · rcases Nat.lt_or_ge n 40 with h40 | h40
    · obtain ⟨t, ht⟩ := shape20 h20 h40
      rw [ht]; exact rti_x_none (by decide) (by decide) t
    · rcases Nat.lt_or_ge n 50 with h50 | h50
      · obtain ⟨t, ht⟩ := shape40 h40 h50
        rw [ht]; exact rti_x_none (by decide) (by decide) t
      · rcases Nat.lt_or_ge n 90 with h90 | h90
        · obtain ⟨t, ht⟩ := shape50 h50 h90
          rw [ht]; exact rti_head_none (c := 'l') (by decide) t
        · rcases Nat.lt_or_ge n 100 with h100 | h100
          · obtain ⟨t, ht⟩ := shape90 h90 h100
            rw [ht]; exact rti_x_none (by decide) (by decide) t
          · rcases Nat.lt_or_ge n 400 with h400 | h400
            · obtain ⟨t, ht⟩ := shape100 h100 h400
              rw [ht]; exact rti_head_none (c := 'c') (by decide) t
            · rcases Nat.lt_or_ge n 500 with h500 | h500
              · obtain ⟨t, ht⟩ := shape400 h400 h500
                rw [ht]; exact rti_head_none (c := 'c') (by decide) t
              · rcases Nat.lt_or_ge n 900 with h900 | h900
                · obtain ⟨t, ht⟩ := shape500 h500 h900
                  rw [ht]; exact rti_head_none (c := 'd') (by decide) t
                · rcases Nat.lt_or_ge n 1000 with h1000 | h1000
                  · obtain ⟨t, ht⟩ := shape900 h900 h1000
                    rw [ht]; exact rti_head_none (c := 'c') (by decide) t
                  · obtain ⟨t, ht⟩ := shape1000 h1000
                    rw [ht]; exact rti_head_none (c := 'm') (by decide) t

/-- For 1 ≤ n ≤ 15 the roman rendering of n parses back to n. -/
theorem rti_itr_id_of_le15 {n : Nat} (h1 : 1 ≤ n) (h2 : n ≤ 15) :
    roman_to_int (int_to_roman n) = some n := by
  interval_cases n <;>
    simp [int_to_roman, int_to_roman_aux, numerals, chars, roman_to_int, roman_map,
      lookupChars]

/-- C10: the roman round trip at function level. -/
theorem roman_round_trip_characterization (n : Nat) (h : 1 ≤ n) :
    (roman_to_int (int_to_roman n) = some n ↔ n ≤ 15) ∧
    (16 ≤ n → roman_to_int (int_to_roman n) = none) := by
  refine ⟨⟨fun hs => ?_, fun hle => rti_itr_id_of_le15 h hle⟩,
    fun h16 => rti_itr_none_of_ge16 h16⟩
  by_contra hgt
  rw [rti_itr_none_of_ge16 (by omega)] at hs
  exact Option.noConfusion hs

/-- Witness for the round-trip characterization at n = 12. -/
theorem roman_round_trip_characterization_witness :
    1 ≤ 12 ∧
      ((roman_to_int (int_to_roman 12) = some 12 ↔ 12 ≤ 15) ∧
       (16 ≤ 12 → roman_to_int (int_to_roman 12) = none)) :=
  ⟨by decide, roman_round_trip_characterization 12 (by decide)⟩

/-- The roman rendering of a positive number starts with a roman letter. -/
theorem itr_head_letter {n : Nat} (h : 1 ≤ n) :
    ∃ c t, int_to_roman n = c :: t ∧ c ∈ ['m', 'c', 'd', 'x', 'l', 'v', 'i'] := by
  rcases Nat.lt_or_ge n 4 with h4 | h4
  · obtain ⟨t, ht⟩ := shape1 h h4
    exact ⟨'i', t, ht, by decide⟩
  rcases Nat.lt_or_ge n 5 with h5 | h5
  · have hn : n = 4 := by omega
    subst hn
    exact ⟨'i', ['v'], itr4, by decide⟩
  rcases Nat.lt_or_ge n 9 with h9 | h9
  · obtain ⟨t, ht⟩ := shape5 h5 h9
    exact ⟨'v', t, ht, by decide⟩
  rcases Nat.lt_or_ge n 10 with h10 | h10
  · have hn : n = 9 := by omega
    subst hn
    exact ⟨'i', ['x'], itr9, by decide⟩
  rcases Nat.lt_or_ge n 40 with h40 | h40
  · obtain ⟨t, ht⟩ := shape10 h10 h40
    exact ⟨'x', t, ht, by decide⟩
  rcases Nat.lt_or_ge n 50 with h50 | h50
  · obtain ⟨t, ht⟩ := shape40 h40 h50
    exact ⟨'x', 'l' :: t, ht, by decide⟩
  rcases Nat.lt_or_ge n 90 with h90 | h90
  · obtain ⟨t, ht⟩ := shape50 h50 h90
    exact ⟨'l', t, ht, by decide⟩
  rcases Nat.lt_or_ge n 100 with h100 | h100
  · obtain ⟨t, ht⟩ := shape90 h90 h100
    exact ⟨'x', 'c' :: t, ht, by decide⟩
  rcases Nat.lt_or_ge n 400 with h400 | h400
  · obtain ⟨t, ht⟩ := shape100 h100 h400
    exact ⟨'c', t, ht, by decide⟩
  rcases Nat.lt_or_ge n 500 with h500 | h500
  · obtain ⟨t, ht⟩ := shape400 h400 h500
    exact ⟨'c', 'd' :: t, ht, by decide⟩
  rcases Nat.lt_or_ge n 900 with h900 | h900
  · obtain ⟨t, ht⟩ := shape500 h500 h900
    exact ⟨'d', t, ht, by decide⟩
  rcases Nat.lt_or_ge n 1000 with h1000 | h1000
  · obtain ⟨t, ht⟩ := shape900 h900 h1000
    exact ⟨'c', 'm' :: t, ht, by decide⟩
  obtain ⟨t, ht⟩ := shape1000 h1000
  exact ⟨'m', t, ht, by decide⟩

/-- C3: an id formatted by `make_span` in roman mode never parses back. -/
theorem roman_format_then_parse_fails (n : Nat) (h : 1 ≤ n) :
    parseSuffix ((make_span_id true n).drop 8) = none := by
  obtain ⟨c, t, ht, hc⟩ := itr_head_letter h
  have hd : (make_span_id true n).drop 8 = '0' :: '0' :: '0' :: (c :: t) := by
    rw [make_span_id, if_pos rfl, ht]
    rfl
  have hcd : c.isDigit = false := by fin_cases hc <;> decide
  have hdig : isdigitStr ('0' :: '0' :: '0' :: c :: t) = false := by
    simp [isdigitStr, List.all_cons, hcd]
  rw [hd, parseSuffix, if_neg (by simp [hdig]), rti_head_none (c := '0') (by decide)]

/-- Witness for the format-then-parse failure at n = 12. -/
theorem roman_format_then_parse_fails_witness :
    1 ≤ 12 ∧ parseSuffix ((make_span_id true 12).drop 8) = none :=
  ⟨by decide, roman_format_then_parse_fails 12 (by decide)⟩

/-- Specification of one loop iteration: the events appended by `step`
carry consecutive values starting at the incoming index, target the
visited element's path, and are only created outside anchors; an
`after` event additionally requires a parent whose lowercased localname
is not a list container. -/
theorem step_spec (interval : Nat) (s : PState) (it : VisitItem) :
    ∃ d, (step interval s it).evs = s.evs ++ d ∧
      (step interval s it).idx = s.idx + d.length ∧
      (∀ k e, d[k]? = some e → e.value = s.idx + k) ∧
      (∀ e ∈ d, e.path = it.path ∧ it.insideA = false ∧
        (e.kind = EvKind.after →
          ∃ pt, it.parentTag = some pt ∧ lnLower pt ∉ listContainers)) := by
  by_cases hA : it.insideA
  · refine ⟨[], ?_, ?_, ?_, ?_⟩ <;> simp [step, hA]
  · have hA' : it.insideA = false := by simpa using hA
    rcases hpt : it.parentTag with _ | pt
    · simp only [step, if_neg hA, hpt]
      split_ifs <;> (refine ⟨[], ?_, ?_, ?_, ?_⟩ <;> simp)
    · simp only [step, if_neg hA, hpt]
      split_ifs <;>
        first
          | (refine ⟨[], ?_, ?_, ?_, ?_⟩ <;> (simp; done))
          | (refine ⟨[⟨it.path, EvKind.before, s.idx⟩], ?_, ?_, ?_, ?_⟩
             · simp
             · simp
             · intro k e hk
               rcases k with _ | k
               · simp at hk
                 subst hk
                 simp
               · simp at hk
             · intro e he
               simp at he
               subst he
               exact ⟨rfl, hA', fun hafter => EvKind.noConfusion hafter⟩)
          | (refine ⟨[⟨it.path, EvKind.after, s.idx⟩], ?_, ?_, ?_, ?_⟩
             · simp
             · simp
             · intro k e hk
               rcases k with _ | k
               · simp at hk
                 subst hk
                 simp
               · simp at hk
             · intro e he
               simp at he
               subst he
               refine ⟨rfl, hA', fun _ => ⟨pt, rfl, ?_⟩⟩
               assumption)
          | (refine ⟨[⟨it.path, EvKind.before, s.idx⟩, ⟨it.path, EvKind.after, s.idx + 1⟩],
                ?_, ?_, ?_, ?_⟩
             · simp
             · simp
             · intro k e hk
               rcases k with _ | _ | k
               · simp at hk
                 subst hk
                 simp
               · simp at hk
                 subst hk
                 simp
               · simp at hk
             · intro e he
               simp at he
               rcases he with he | he <;> subst he
               · exact ⟨rfl, hA', fun hafter => EvKind.noConfusion hafter⟩
               · refine ⟨rfl, hA', fun _ => ⟨pt, rfl, ?_⟩⟩
                 assumption)

/-- Specification of the whole placement loop: it appends a list of
events with consecutive values starting at the initial index, and every
event stems from a visited item outside an anchor (with the
list-container restriction for `after` events). -/
theorem foldl_step_spec (interval : Nat) (items : List VisitItem) (s : PState) :
    ∃ d, (items.foldl (step interval) s).evs = s.evs ++ d ∧
      (items.foldl (step interval) s).idx = s.idx + d.length ∧
      (∀ k e, d[k]? = some e → e.value = s.idx + k) ∧
      (∀ e ∈ d, ∃ it ∈ items, e.path = it.path ∧ it.insideA = false ∧
        (e.kind = EvKind.after →
          ∃ pt, it.parentTag = some pt ∧ lnLower pt ∉ listContainers)) := by
  induction items generalizing s with
  | nil => exact ⟨[], by simp, by simp, by simp, by simp⟩
  | cons it rest ih =>
    obtain ⟨d1, h1, h2, h3, h4⟩ := step_spec interval s it
    obtain ⟨d2, g1, g2, g3, g4⟩ := ih (step interval s it)
    refine ⟨d1 ++ d2, ?_, ?_, ?_, ?_⟩
    · rw [List.foldl_cons, g1, h1, List.append_assoc]
    · rw [List.foldl_cons, g2, h2, List.length_append]
      omega
    · intro k e hk
      rcases Nat.lt_or_ge k d1.length with hk1 | hk1
      · rw [List.getElem?_append_left hk1] at hk
        exact h3 k e hk
      · rw [List.getElem?_append_right hk1] at hk
        have := g3 _ _ hk
        rw [h2] at this
        omega
    · intro e he
      rcases List.mem_append.1 he with he1 | he2
      · exact ⟨it, List.mem_cons_self _ _, h4 e he1⟩
      · obtain ⟨it', hit', hprops⟩ := g4 e he2
        exact ⟨it', List.mem_cons_of_mem _ hit', hprops⟩

/-- C6: in a Continue-mode run with base value `base`, the k-th inserted
marker (1-based) carries value exactly `base + k`. -/
theorem kth_inserted_value (doc : Elem) (interval : Nat) (fp : List Nat) (fid : List Char)
    (isR : Bool) (base : Nat) (hit : BodyHit)
    (hfind : find_first_pgepubid doc [] = some (fp, fid))
    (hbare : fid ≠ chars "pgepubid")
    (hparse : parseSuffix (fid.drop 8) = some (isR, base))
    (hbody : findBody (removeStray fp doc []) [] false none = some hit) :
    ∀ k e, (placementEvents hit base interval)[k]? = some e → e.value = base + (k + 1) := by
  intro k e hk
  obtain ⟨d, h1, h2, h3, h4⟩ :=
    foldl_step_spec interval (preorderEl hit.body hit.path hit.anc hit.parentTag)
      ⟨0, base + 1, []⟩
  rw [placementEvents, h1] at hk
  simp only [List.nil_append] at hk
  have hv := h3 k e hk
  simpa [Nat.add_comm, Nat.add_assoc, Nat.add_left_comm] using hv

/-- Witness for numbering continuity on `docW6` with interval 2. -/
theorem kth_inserted_value_witness :
    find_first_pgepubid docW6 [] = some ([0, 0], chars "pgepubid00042") ∧
      (⟨[0, 1], EvKind.before, 43⟩ : Event).value = 42 + (0 + 1) :=
  ⟨rfl, kth_inserted_value docW6 2 [0, 0] (chars "pgepubid00042") false 42
    ⟨[0], false, some (chars "html"), bodyW6⟩ rfl (by decide) rfl rfl 0
    ⟨[0, 1], EvKind.before, 43⟩ rfl⟩

/-- Following a path works through path concatenation. -/
theorem elementAt_append {doc el : Elem} {p : List Nat} (q : List Nat)
    (h : elementAt doc p = some el) : elementAt doc (p ++ q) = elementAt el q := by
  induction p generalizing doc with
  | nil =>
    simp only [elementAt, Option.some.injEq] at h
    subst h
    rfl
  | cons i p' ih =>
    rw [List.cons_append]
    simp only [elementAt] at h ⊢
    cases hc : doc.children[i]? with
    | none => rw [hc] at h; exact absurd h (by simp)
    | some c =>
      rw [hc] at h
      simp only [hc]
      exact ih h

/-- The anchor chain decomposes along path concatenation. -/
theorem is_inside_anchor_append {doc el : Elem} {p : List Nat} (q : List Nat)
    (h : elementAt doc p = some el) :
    is_inside_anchor doc (p ++ q) = (ancAbove doc p || is_inside_anchor el q) := by
  induction p generalizing doc with
  | nil =>
    simp only [elementAt, Option.some.injEq] at h
    subst h
    simp [ancAbove]
  | cons i p' ih =>
    rw [List.cons_append]
    simp only [elementAt] at h
    simp only [is_inside_anchor, ancAbove]
    cases hc : doc.children[i]? with
    | none => rw [hc] at h; exact absurd h (by simp)
    | some c =>
      rw [hc] at h
      simp only [hc]
      rw [ih h, Bool.or_assoc]

/-- `dropLast` over an append with a nonempty right part. -/
theorem dropLast_append_left (p : List Nat) {q : List Nat} (hq : q ≠ []) :
    (p ++ q).dropLast = p ++ q.dropLast := by
  induction p with
  | nil => rfl
  | cons i p' ih =>
    rw [List.cons_append, List.cons_append, ← ih]
    apply List.dropLast_cons_of_ne_nil
    simp [hq]

/-- The parent tag decomposes along path concatenation. -/
theorem parentTagAt_append {doc el : Elem} {p : List Nat} (q : List Nat)
    (h : elementAt doc p = some el) (hq : q ≠ []) :
    parentTagAt doc (p ++ q) = (elementAt el q.dropLast).map Elem.tag := by
  rw [parentTagAt, if_neg (by simp [hq]), dropLast_append_left p hq,
    elementAt_append q.dropLast h]

mutual
/-- Context facts for every item enumerated from a subtree: its path
extends the subtree root's path, it addresses a real element, its anchor
flag and parent tag are determined by the tree. -/
theorem preorderEl_facts (el : Elem) (p : List Nat) (ia : Bool) (pt : Option (List Char)) :
    ∀ it ∈ preorderEl el p ia pt,
      ∃ q, it.path = p ++ q ∧ (∃ el', elementAt el q = some el') ∧
        it.insideA = (ia || is_inside_anchor el q) ∧
        it.parentTag = (if q = [] then pt else (elementAt el q.dropLast).map Elem.tag) := by
  match el with
  | .mk tag idA tx tl ch =>
    intro it hmem
    rw [preorderEl] at hmem
    rcases List.mem_cons.1 hmem with hhd | htl
    · subst hhd
      refine ⟨[], by simp, ⟨_, rfl⟩, ?_, by simp⟩
      simp [is_inside_anchor, Elem.tag]
    · obtain ⟨j, c, q, hget, hpath, hel, hia, hpt⟩ :=
        preorderKids_facts ch p 0 (ia || isAnchorTag (Elem.mk tag idA tx tl ch).tag)
          (Elem.mk tag idA tx tl ch).tag it htl
      refine ⟨j :: q, by simpa using hpath, ?_, ?_, ?_⟩
      · obtain ⟨el', hel'⟩ := hel
        exact ⟨el', by simp [elementAt, Elem.children, hget, hel']⟩
      · rw [hia, is_inside_anchor]
        simp only [Elem.children, hget]
        rw [Bool.or_assoc]
      · rw [hpt]
        rcases hq : q with _ | ⟨q0, q'⟩
        · simp [elementAt, Elem.tag]
        · have hdl : (j :: q0 :: q').dropLast = j :: (q0 :: q').dropLast :=
            List.dropLast_cons_of_ne_nil (by simp)
          rw [if_neg (by simp), if_neg (by simp), hdl]
          simp [elementAt, Elem.children, hget]

/-- Context facts for items enumerated from a child list starting at
child index `i`. -/
theorem preorderKids_facts (cs : List Elem) (p : List Nat) (i : Nat) (ia : Bool)
    (ptag : List Char) :
    ∀ it ∈ preorderKids cs p i ia ptag,
      ∃ j c q, cs[j]? = some c ∧ it.path = p ++ ((i + j) :: q) ∧
        (∃ el', elementAt c q = some el') ∧
        it.insideA = (ia || is_inside_anchor c q) ∧
        it.parentTag = (if q = [] then some ptag else (elementAt c q.dropLast).map Elem.tag) := by
  match cs with
  | [] => intro it hmem; rw [preorderKids] at hmem; exact absurd hmem (by simp)
  | c :: cs' =>
    intro it hmem
    rw [preorderKids] at hmem
    rcases List.mem_append.1 hmem with hl | hr
    · obtain ⟨q, hpath, hel, hia, hpt⟩ := preorderEl_facts c (p ++ [i]) ia (some ptag) it hl
      exact ⟨0, c, q, by simp, by simpa [List.append_assoc] using hpath, hel, hia, hpt⟩
    · obtain ⟨j, c', q, hget, hpath, hel, hia, hpt⟩ :=
        preorderKids_facts cs' p (i + 1) ia ptag it hr
      refine ⟨j + 1, c', q, by simpa using hget, ?_, hel, hia, hpt⟩
      rw [hpath]
      have : i + 1 + j = i + (j + 1) := by omega
      rw [this]
end

mutual
/-- Context facts for the body search: the hit's path, anchor flag and
parent tag are determined by the tree. -/
theorem findBody_facts (el : Elem) (p : List Nat) (ia : Bool) (pt : Option (List Char)) :
    ∀ hit, findBody el p ia pt = some hit →
      ∃ q, hit.path = p ++ q ∧ elementAt el q = some hit.body ∧
        hit.anc = (ia || ancAbove el q) ∧
        hit.parentTag = (if q = [] then pt else (elementAt el q.dropLast).map Elem.tag) := by
  match el with
  | .mk tag idA tx tl ch =>
    intro hit hfound
    rw [findBody] at hfound
    by_cases hb : localname tag = chars "body"
    · rw [if_pos hb] at hfound
      injection hfound with hfound
      subst hfound
      exact ⟨[], by simp, rfl, by simp [ancAbove], by simp⟩
    · rw [if_neg hb] at hfound
      obtain ⟨j, c, q, hget, hpath, hel, hanc, hpt⟩ :=
        findBodyKids_facts ch p 0 (ia || isAnchorTag (Elem.mk tag idA tx tl ch).tag)
          (Elem.mk tag idA tx tl ch).tag hit hfound
      refine ⟨j :: q, by simpa using hpath, ?_, ?_, ?_⟩
      · simp [elementAt, Elem.children, hget, hel]
      · rw [hanc, ancAbove]
        simp only [Elem.children, hget]
        rw [Bool.or_assoc]
      · rw [hpt]
        rcases hq : q with _ | ⟨q0, q'⟩
        · simp [elementAt, Elem.tag]
        · have hdl : (j :: q0 :: q').dropLast = j :: (q0 :: q').dropLast :=
            List.dropLast_cons_of_ne_nil (by simp)
          rw [if_neg (by simp), if_neg (by simp), hdl]
          simp [elementAt, Elem.children, hget]

/-- Context facts for the body search over a child list. -/
theorem findBodyKids_facts (cs : List Elem) (p : List Nat) (i : Nat) (ia : Bool)
    (ptag : List Char) :
    ∀ hit, findBodyKids cs p i ia ptag = some hit →
      ∃ j c q, cs[j]? = some c ∧ hit.path = p ++ ((i + j) :: q) ∧
        elementAt c q = some hit.body ∧
        hit.anc = (ia || ancAbove c q) ∧
        hit.parentTag = (if q = [] then some ptag else (elementAt c q.dropLast).map Elem.tag) := by
  match cs with
  | [] => intro hit hfound; rw [findBodyKids] at hfound; exact absurd hfound (by simp)
  | c :: cs' =>
    intro hit hfound
    rw [findBodyKids] at hfound
    cases hfb : findBody c (p ++ [i]) ia (some ptag) with
    | some r =>
      rw [hfb] at hfound
      injection hfound with hfound
      obtain ⟨q, hpath, hel, hanc, hpt⟩ := findBody_facts c (p ++ [i]) ia (some ptag) r hfb
      subst hfound
      exact ⟨0, c, q, by simp, by simpa [List.append_assoc] using hpath, hel, hanc, hpt⟩
    | none =>
      rw [hfb] at hfound
      obtain ⟨j, c', q, hget, hpath, hel, hanc, hpt⟩ :=
        findBodyKids_facts cs' p (i + 1) ia ptag hit hfound
      refine ⟨j + 1, c', q, by simpa using hget, ?_, hel, hanc, hpt⟩
      rw [hpath]
      have : i + 1 + j = i + (j + 1) := by omega
      rw [this]
end

/-- In a Continue run, every visited item's anchor flag and parent tag
agree with the post-removal tree at the item's path. -/
theorem item_context (doc1 : Elem) (hit : BodyHit)
    (hbody : findBody doc1 [] false none = some hit) :
    ∀ it ∈ preorderEl hit.body hit.path hit.anc hit.parentTag,
      it.insideA = is_inside_anchor doc1 it.path ∧
      it.parentTag = parentTagAt doc1 it.path := by
  obtain ⟨q0, hpath0, hel0, hanc0, hpt0⟩ := findBody_facts doc1 [] false none hit hbody
  simp only [List.nil_append] at hpath0
  have helAt : elementAt doc1 hit.path = some hit.body := by rw [hpath0]; exact hel0
  have hanc0' : hit.anc = ancAbove doc1 hit.path := by
    rw [hanc0, hpath0, Bool.false_or]
  have hpt0' : hit.parentTag = parentTagAt doc1 hit.path := by
    rw [hpt0, hpath0, parentTagAt]
  intro it hm
  obtain ⟨q, hpath, ⟨el', hel'⟩, hia, hpt⟩ :=
    preorderEl_facts hit.body hit.path hit.anc hit.parentTag it hm
  constructor
  · rw [hia, hpath, is_inside_anchor_append q helAt, hanc0']
  · rcases hq : q with _ | ⟨a, b⟩
    · subst hq
      rw [hpt, if_pos rfl, hpath, List.append_nil, hpt0']
    · subst hq
      rw [hpt, if_neg (by simp), hpath, parentTagAt_append (a :: b) helAt (by simp)]

/-- C4: no insertion of the placement pass is triggered on an element
inside an anchor; since each new marker is inserted as a sibling of the
element at the event's path, its ancestors in the output are exactly the
proper ancestors of that path, so no inserted marker is a child or
descendant of an anchor element. -/
theorem no_insertion_inside_anchor (doc : Elem) (interval : Nat) (fp : List Nat)
    (fid : List Char) (isR : Bool) (base : Nat) (hit : BodyHit)
    (hfind : find_first_pgepubid doc [] = some (fp, fid))
    (hbare : fid ≠ chars "pgepubid")
    (hparse : parseSuffix (fid.drop 8) = some (isR, base))
    (hbody : findBody (removeStray fp doc []) [] false none = some hit) :
    ∀ e ∈ placementEvents hit base interval,
      is_inside_anchor (removeStray fp doc []) e.path = false := by
  intro e he
  obtain ⟨d, h1, h2, h3, h4⟩ :=
    foldl_step_spec interval (preorderEl hit.body hit.path hit.anc hit.parentTag)
      ⟨0, base + 1, []⟩
  rw [placementEvents, h1] at he
  simp only [List.nil_append] at he
  obtain ⟨it, hitmem, hepath, hinsideA, _⟩ := h4 e he
  have hctx := item_context (removeStray fp doc []) hit hbody it hitmem
  rw [hepath, ← hctx.1, hinsideA]

/-- Witness for the anchor claim on `docW4` with interval 2. -/
theorem no_insertion_inside_anchor_witness :
    placementEvents ⟨[0], false, some (chars "html"), bodyW4⟩ 1 2 =
        [⟨[0, 2], EvKind.before, 2⟩] ∧
      is_inside_anchor (removeStray [0, 0] docW4 []) [0, 2] = false :=
  ⟨rfl, no_insertion_inside_anchor docW4 2 [0, 0] (chars "pgepubid00001") false 1
    ⟨[0], false, some (chars "html"), bodyW4⟩ rfl (by decide) rfl rfl
    ⟨[0, 2], EvKind.before, 2⟩ (by decide)⟩

/-- C7 (intended semantics of the mis-indented lines 139-146): an
`after` insertion — the one placed immediately after `el` among its
parent's children when the tail run crossed the threshold — only happens
when the parent exists and its lowercased localname is not a list
container. -/
theorem tail_insertion_not_into_list_container (doc : Elem) (interval : Nat) (fp : List Nat)
    (fid : List Char) (isR : Bool) (base : Nat) (hit : BodyHit)
    (hfind : find_first_pgepubid doc [] = some (fp, fid))
    (hbare : fid ≠ chars "pgepubid")
    (hparse : parseSuffix (fid.drop 8) = some (isR, base))
    (hbody : findBody (removeStray fp doc []) [] false none = some hit) :
    ∀ e ∈ placementEvents hit base interval, e.kind = EvKind.after →
      ∃ pt, parentTagAt (removeStray fp doc []) e.path = some pt ∧
        lnLower pt ∉ listContainers := by
  intro e he hk
  obtain ⟨d, h1, h2, h3, h4⟩ :=
    foldl_step_spec interval (preorderEl hit.body hit.path hit.anc hit.parentTag)
      ⟨0, base + 1, []⟩
  rw [placementEvents, h1] at he
  simp only [List.nil_append] at he
  obtain ⟨it, hitmem, hepath, _, hafter⟩ := h4 e he
  obtain ⟨pt, hpt, hnot⟩ := hafter hk
  have hctx := item_context (removeStray fp doc []) hit hbody it hitmem
  exact ⟨pt, by rw [hepath, ← hctx.2, hpt], hnot⟩

/-- Witness for the tail-insertion claim on `docW7` with interval 2. -/
theorem tail_insertion_not_into_list_container_witness :
    placementEvents ⟨[0], false, some (chars "html"), bodyW7⟩ 1 2 =
        [⟨[0, 1, 0], EvKind.after, 2⟩] ∧
      ∃ pt, parentTagAt (removeStray [0, 0] docW7 []) [0, 1, 0] = some pt ∧
        lnLower pt ∉ listContainers :=
  ⟨rfl, tail_insertion_not_into_list_container docW7 2 [0, 0] (chars "pgepubid00001") false 1
    ⟨[0], false, some (chars "html"), bodyW7⟩ rfl (by decide) rfl rfl
    ⟨[0, 1, 0], EvKind.after, 2⟩ (by decide) rfl⟩

/-- Counting words of n copies of "word " gives n. -/
theorem count_words_replicate (n : Nat) :
    count_words ((List.replicate n (chars "word ")).flatten) = n := by
  induction n with
  | zero => rfl
  | succ n ih =>
    have h1 : (List.replicate (n + 1) (chars "word ")).flatten =
        chars "word " ++ (List.replicate n (chars "word ")).flatten := by
      simp [List.replicate_succ]
    have h2 : ∀ l, countRunsAux (chars "word " ++ l) false = 1 + countRunsAux l false := by
      intro l
      show 1 + (0 + (0 + (0 + countRunsAux l false))) = 1 + countRunsAux l false
      omega
    rw [count_words] at ih ⊢
    rw [h1, h2, ih]
    omega

/-- Running `process_file` with interval 200 on a document whose body
holds the seed marker and one paragraph whose text counts 400 words:
exactly one insertion happens, immediately before the paragraph. -/
theorem processC2_run (ws : List Char) (h : count_words ws = 400) :
    process_file (docC2 ws) 200 = .written (docC2out ws) := by
  obtain ⟨c, t, rfl⟩ : ∃ c t, ws = c :: t := by
    cases ws with
    | nil => rw [count_words] at h; exact absurd h (by decide)
    | cons c t => exact ⟨c, t, rfl⟩
  have hstep : step 200 ⟨0, 43, []⟩ ⟨[0, 1], some (c :: t), none, false, some (chars "body")⟩
      = ⟨0, 44, [⟨[0, 1], EvKind.before, 43⟩]⟩ := by
    have e1 : step 200 ⟨0, 43, []⟩ ⟨[0, 1], some (c :: t), none, false, some (chars "body")⟩
        = if 200 ≤ 0 + count_words (c :: t) then ⟨0, 44, [⟨[0, 1], EvKind.before, 43⟩]⟩
          else ⟨0 + count_words (c :: t), 43, []⟩ := rfl
    rw [e1, Nat.zero_add, h, if_pos (by norm_num)]
  have hfold : (preorderEl (bodyC2 (c :: t)) [0] false (some (chars "html"))).foldl
      (step 200) ⟨0, 43, []⟩ = ⟨0, 44, [⟨[0, 1], EvKind.before, 43⟩]⟩ := by
    have hpre : preorderEl (bodyC2 (c :: t)) [0] false (some (chars "html")) =
        [⟨[0], none, none, false, some (chars "html")⟩,
         ⟨[0, 0], none, none, false, some (chars "body")⟩,
         ⟨[0, 1], some (c :: t), none, false, some (chars "body")⟩] := rfl
    rw [hpre, List.foldl_cons, List.foldl_cons, List.foldl_cons, List.foldl_nil]
    rw [show step 200 ⟨0, 43, []⟩ ⟨[0], none, none, false, some (chars "html")⟩
        = ⟨0, 43, []⟩ from rfl]
    rw [show step 200 ⟨0, 43, []⟩ ⟨[0, 0], none, none, false, some (chars "body")⟩
        = ⟨0, 43, []⟩ from rfl]
    exact hstep
  have hres : process_file (docC2 (c :: t)) 200 =
      .written (insertSpans false
        (placementEvents ⟨[0], false, some (chars "html"), bodyC2 (c :: t)⟩ 42 200)
        (removeStray [0, 0] (docC2 (c :: t)) []) []) := rfl
  have hevs : placementEvents ⟨[0], false, some (chars "html"), bodyC2 (c :: t)⟩ 42 200 =
      [⟨[0, 1], EvKind.before, 43⟩] := by
    rw [placementEvents]
    exact congrArg PState.evs hfold
  rw [hres, hevs]
  rfl

/-- C2 (amended): with interval 200 and a body whose single text run
counts exactly 400 words, processing inserts exactly ONE marker (not
two), at an element boundary immediately before the element carrying the
run — the run is counted atomically and each element triggers at most
one text-threshold insertion. -/
theorem single_text_run_400_inserts_exactly_one (ws : List Char)
    (h : count_words ws = 400) :
    process_file (docC2 ws) 200 = .written (docC2out ws) ∧
      markerCount (docC2out ws) = markerCount (docC2 ws) + 1 :=
  ⟨processC2_run ws h, rfl⟩

/-- Witness for the amended single-run claim at a concrete 400-word
text. -/
theorem single_text_run_400_inserts_exactly_one_witness :
    count_words w400 = 400 ∧
      (process_file (docC2 w400) 200 = .written (docC2out w400) ∧
        markerCount (docC2out w400) = markerCount (docC2 w400) + 1) :=
  ⟨count_words_replicate 400,
   single_text_run_400_inserts_exactly_one w400 (count_words_replicate 400)⟩

/-- C2 counterexample: on the concrete 400-word document the output
holds 2 markers (seed plus one inserted), while the claim demands two
insertions (3 markers in total). -/
theorem single_400_word_run_inserts_one :
    markerCount (docC2 w400) = 1 ∧
      (writtenTree (process_file (docC2 w400) 200)).map markerCount = some 2 := by
  refine ⟨rfl, ?_⟩
  rw [processC2_run w400 (count_words_replicate 400)]
  rfl

/-- C8: the two error paths of `process_file` — unparsable first-marker
suffix and missing body — return before `tree.write`, so the file is
left unwritten (its on-disk content unchanged). -/
theorem error_paths_leave_file_unwritten :
    (∀ doc interval fp fid, find_first_pgepubid doc [] = some (fp, fid) →
        fid ≠ chars "pgepubid" → parseSuffix (fid.drop 8) = none →
        process_file doc interval = .errorUnparsable ∧
          ∀ t, process_file doc interval ≠ .written t) ∧
    (∀ doc interval fp fid isR base, find_first_pgepubid doc [] = some (fp, fid) →
        fid ≠ chars "pgepubid" → parseSuffix (fid.drop 8) = some (isR, base) →
        findBody (removeStray fp doc []) [] false none = none →
        process_file doc interval = .errorNoBody ∧
          ∀ t, process_file doc interval ≠ .written t) := by
  constructor
  · intro doc interval fp fid hfind hbare hparse
    have hres : process_file doc interval = .errorUnparsable := by
      simp only [process_file, hfind, if_neg hbare, hparse]
    exact ⟨hres, fun t hw => by rw [hres] at hw; exact Outcome.noConfusion hw⟩
  · intro doc interval fp fid isR base hfind hbare hparse hbody
    have hres : process_file doc interval = .errorNoBody := by
      simp only [process_file, hfind, if_neg hbare, hparse, hbody]
    exact ⟨hres, fun t hw => by rw [hres] at hw; exact Outcome.noConfusion hw⟩

/-- Witness for the error paths: a document with an unparsable suffix and
one without a body. -/
theorem error_paths_leave_file_unwritten_witness :
    process_file docC8u 200 = Outcome.errorUnparsable ∧
      process_file docC8b 200 = Outcome.errorNoBody :=
  ⟨(error_paths_leave_file_unwritten.1 docC8u 200 [0, 0] (chars "pgepubidabc")
      rfl (by decide) rfl).1,
   (error_paths_leave_file_unwritten.2 docC8b 200 [0, 0] (chars "pgepubid00001") false 1
      rfl (by decide) rfl rfl).1⟩

/-- C9 (amended): the process exits non-zero exactly when the argument
count is wrong; a single argument that is neither an existing `.xhtml`
file nor a directory is reported as an error but the process still exits
zero (the final `else` branch of `main` does not call `sys.exit`). -/
theorem exit_status_characterization (argv : List (List Char)) (fs : Fs) :
    ((mainRun argv fs).1 ≠ 0 ↔ argv.length ≠ 2) ∧
    (argv.length = 2 →
      (endsWithXhtml (argv.getD 1 []) && fs.isFile (argv.getD 1 [])) = false →
      fs.isDir (argv.getD 1 []) = false →
      mainRun argv fs = (0, MainAction.invalidArg)) := by
  constructor
  · by_cases hlen : argv.length = 2
    · have h2 : ¬argv.length ≠ 2 := by omega
      constructor
      · intro hne
        exfalso
        apply hne
        simp only [mainRun, if_neg h2]
        split_ifs <;> rfl
      · intro hne
        exact absurd hlen hne
    · constructor
      · intro _
        exact hlen
      · intro _
        simp only [mainRun, if_pos hlen]
        exact one_ne_zero
  · intro hlen hfile hdir
    have h2 : ¬argv.length ≠ 2 := by omega
    simp only [mainRun, if_neg h2]
    have hno1 : ¬(endsWithXhtml (argv.getD 1 []) && fs.isFile (argv.getD 1 [])) = true := by
      rw [hfile]
      exact Bool.false_ne_true
    have hno2 : ¬fs.isDir (argv.getD 1 []) = true := by
      rw [hdir]
      exact Bool.false_ne_true
    rw [if_neg hno1, if_neg hno2]

/-- Witness for the exit-status characterization: a missing path. -/
theorem exit_status_characterization_witness :
    mainRun [chars "paginate_epub.py", chars "nope"] fsNone = (0, MainAction.invalidArg) :=
  (exit_status_characterization [chars "paginate_epub.py", chars "nope"] fsNone).2 rfl rfl rfl

/-- C9 counterexample: a well-formed invocation whose argument is neither
an existing `.xhtml` file nor a directory exits with status 0, while the
claim demands a non-zero status. -/
theorem invalid_arg_exits_zero :
    ([chars "paginate_epub.py", chars "nope"] : List (List Char)).length = 2 ∧
      fsNone.isFile (chars "nope") = false ∧
      fsNone.isDir (chars "nope") = false ∧
      mainRun [chars "paginate_epub.py", chars "nope"] fsNone = (0, MainAction.invalidArg) :=
  ⟨rfl, rfl, rfl, rfl⟩

/-- C1 (code bug): on a namespaced document the stray-removal loop's
condition `el.tag == 'span'` never matches a namespaced tag, so a stray
marker of the prefix survives Continue-mode processing: the written tree
equals the input and still contains two markers of the prefix,
contradicting "exactly one marker with the original first-found id …
and no other markers of that prefix". -/
theorem stray_marker_survives_namespaced :
    writtenTree (process_file docC1ns 200) = some docC1ns ∧ markerCount docC1ns = 2 :=
  ⟨rfl, rfl⟩

/-- C5 (code bug): on a namespaced StripOnly document, `strip_pgepubid`
removes nothing (raw-tag comparison), so the written tree still contains
a marker of the prefix instead of zero. -/
theorem strip_only_keeps_namespaced_marker :
    writtenTree (process_file docC5ns 200) = some docC5ns ∧ markerCount docC5ns = 1 :=
  ⟨rfl, rfl⟩
